import Mathlib

/-!
Verification development for the RainFARM stochastic downscaling routine
(pysteps/downscaling/rainfarm.py).

The embedding models the three functions of the source file:

* log_slope       : ordinary least-squares fit of log power against log
                    frequency on a central sub-range of the log-frequency span
                    (numpy.polyfit of degree 1);
* balanced_spatial_average : convolve(x, k) / convolve(ones, k) with
                    scipy.ndimage.convolve semantics (boundary mode "reflect",
                    kernel centre at size / 2);
* downscale       : spectral-slope estimation, synthesis of a power-law random
                    spectrum on the upsampled frequency grid, inverse FFT,
                    standard-deviation normalisation, exponentiation, and the
                    conservative renormalisation by the ratio of balanced
                    spatial averages, followed by optional thresholding.

Machine floats are modelled by real numbers; the random draw
numpy.random.rand(*shape) is an explicit parameter phi of the embedding.
Where numpy raises (numpy.min of an empty array: ValueError; numpy.polyfit
with an empty sample vector: TypeError) the embedding returns the
corresponding error of the Except monad.  Where numpy silently produces
nan or inf (division by a zero standard deviation, zero divisor in the
renormalisation ratio) the real-number model keeps total functions, and the
theorems below make the relevant zero-divisor facts explicit.
-/

open scoped BigOperators

noncomputable section

namespace RainFarm

/-- Two-dimensional real array (a numpy ndarray of floats) with an explicit
shape (m rows, n columns) and a total entry function. -/
structure Fld where
  m : ℕ
  n : ℕ
  f : ℕ → ℕ → ℝ

/-- Two-dimensional complex array. -/
structure CFld where
  m : ℕ
  n : ℕ
  f : ℕ → ℕ → ℂ

/-- numpy.fft.fftfreq n d: the sample-frequency vector
[0, 1, ..., ceil(n/2)-1, -floor(n/2), ..., -1] / (d*n). -/
def fftfreq (n : ℕ) (d : ℝ) (i : ℕ) : ℝ :=
  (if 2 * i < n then (i : ℝ) else (i : ℝ) - (n : ℝ)) / (d * n)

/-- k_sqr grid at original resolution: ki[:,None]**2 + kj[None,:]**2 with
ki = fftfreq(m), kj = fftfreq(n) (d = 1). -/
def kSqr (P : Fld) : Fld where
  m := P.m
  n := P.n
  f := fun i j => fftfreq P.m 1 i ^ 2 + fftfreq P.n 1 j ^ 2

/-- k = sqrt(k_sqr), radial frequency magnitude at original resolution. -/
def kGrid (P : Fld) : Fld where
  m := P.m
  n := P.n
  f := fun i j => Real.sqrt ((kSqr P).f i j)

/-- k_ds_sqr grid at the upsampled resolution: fftfreq is taken over
m*ds_factor points with sample spacing d = 1/ds_factor. -/
def kSqrDs (P : Fld) (D : ℕ) : Fld where
  m := P.m * D
  n := P.n * D
  f := fun i j =>
    fftfreq (P.m * D) (1 / (D : ℝ)) i ^ 2 + fftfreq (P.n * D) (1 / (D : ℝ)) j ^ 2

/-- numpy.fft.fft2: forward two-dimensional discrete Fourier transform. -/
def fft2 (P : Fld) : CFld where
  m := P.m
  n := P.n
  f := fun i j =>
    ∑ x ∈ Finset.range P.m, ∑ y ∈ Finset.range P.n,
      (P.f x y : ℂ) *
        Complex.exp (-(2 * Real.pi * Complex.I) *
          ((i : ℂ) * x / P.m + (j : ℂ) * y / P.n))

/-- numpy.fft.ifft2: inverse two-dimensional discrete Fourier transform,
normalised by the number of grid cells. -/
def ifft2 (F : CFld) : CFld where
  m := F.m
  n := F.n
  f := fun x y =>
    (∑ i ∈ Finset.range F.m, ∑ j ∈ Finset.range F.n,
      F.f i j *
        Complex.exp ((2 * Real.pi * Complex.I) *
          ((i : ℂ) * x / F.m + (j : ℂ) * y / F.n))) / ((F.m : ℂ) * (F.n : ℂ))

/-- Squared magnitude of the forward transform, abs(fp)**2. -/
def fpAbsSq (P : Fld) (i j : ℕ) : ℝ := Complex.abs ((fft2 P).f i j) ^ 2

/-- log_power_spectrum = log(abs(fp)**2). -/
def logPower (P : Fld) (i j : ℕ) : ℝ := Real.log (fpAbsSq P i j)

/-- Row-major enumeration of the index grid, the order in which a boolean
mask flattens a two-dimensional numpy array. -/
def rowMajor (m n : ℕ) : List (ℕ × ℕ) :=
  (List.range m).flatMap fun i => (List.range n).map fun j => (i, j)

open Classical in
/-- The valid mask of downscale: valid = (k != 0) and isfinite(log_power).
For a float x = abs(fp)**2 >= 0, isfinite(log x) holds exactly when x is not
zero, which is how the mask is rendered over the reals.  The list carries the
pairs (log k, log power) of the selected grid points in row-major order. -/
def validPairs (P : Fld) : List (ℝ × ℝ) :=
  (rowMajor P.m P.n).filterMap fun p =>
    if (kGrid P).f p.1 p.2 ≠ 0 ∧ fpAbsSq P p.1 p.2 ≠ 0 then
      some (Real.log ((kGrid P).f p.1 p.2), logPower P p.1 p.2)
    else none

/-- numpy.min over a one-dimensional array, as a fold; the empty case is
never reached on the paths modelled below (numpy raises ValueError there,
which log_slope reports). -/
def listMin : List ℝ → ℝ
  | [] => 0
  | a :: t => t.foldl min a

/-- numpy.max over a one-dimensional array, as a fold. -/
def listMax : List ℝ → ℝ
  | [] => 0
  | a :: t => t.foldl max a

/-- lk_min after the mutation lk_min += (1/6) * lk_range of log_slope. -/
def shrinkLo (lk : List ℝ) : ℝ :=
  listMin lk + 1 / 6 * (listMax lk - listMin lk)

/-- lk_max after the mutation lk_max -= (1/6) * lk_range of log_slope. -/
def shrinkHi (lk : List ℝ) : ℝ :=
  listMax lk - 1 / 6 * (listMax lk - listMin lk)

open Classical in
/-- The selected sample of log_slope: the pairs of the zipped input arrays
whose log-frequency lies between the shrunk bounds (the boolean mask
selected = (lk_min <= log_k) & (log_k <= lk_max)). -/
def selPairs (lk lp : List ℝ) : List (ℝ × ℝ) :=
  (lk.zip lp).filterMap fun p =>
    if shrinkLo lk ≤ p.1 ∧ p.1 ≤ shrinkHi lk then some p else none

def sumX (pts : List (ℝ × ℝ)) : ℝ := (pts.map fun p => p.1).sum

def sumY (pts : List (ℝ × ℝ)) : ℝ := (pts.map fun p => p.2).sum

def sumXX (pts : List (ℝ × ℝ)) : ℝ := (pts.map fun p => p.1 ^ 2).sum

def sumXY (pts : List (ℝ × ℝ)) : ℝ := (pts.map fun p => p.1 * p.2).sum

/-- Denominator of the degree-one least-squares slope,
N * sum(x^2) - (sum x)^2. -/
def olsDen (pts : List (ℝ × ℝ)) : ℝ :=
  (pts.length : ℝ) * sumXX pts - sumX pts ^ 2

/-- Degree-one least-squares slope in normal-equation form,
(N * sum(x*y) - sum x * sum y) / (N * sum(x^2) - (sum x)^2). -/
def olsSlope (pts : List (ℝ × ℝ)) : ℝ :=
  ((pts.length : ℝ) * sumXY pts - sumX pts * sumY pts) / olsDen pts

/-- Degree-one least-squares intercept. -/
def olsIntercept (pts : List (ℝ × ℝ)) : ℝ :=
  (sumY pts - olsSlope pts * sumX pts) / (pts.length : ℝ)

/-- Errors that the numpy calls of the source can raise: TypeError from
numpy.polyfit on an empty sample vector, ValueError from a reduction
(min or max) over an empty array. -/
inductive NumpyError where
  | typeError : NumpyError
  | valueError : NumpyError

/-- numpy.polyfit(x, y, 1): the least-squares line (slope, intercept).
On an empty sample vector numpy raises the generic
TypeError: expected non-empty vector for x.  For a non-degenerate sample the
least-squares solution is the closed normal-equation form used here. -/
def polyfit1 (pts : List (ℝ × ℝ)) : Except NumpyError (ℝ × ℝ) :=
  match pts with
  | [] => .error .typeError
  | _ => .ok (olsSlope pts, olsIntercept pts)

/-- log_slope of the source: shrink the log-frequency range by one sixth of
its span at each end, select the sample inside the shrunk range, fit a line
with numpy.polyfit, negate the slope.  An empty log_k input makes the min
reduction raise (ValueError). -/
def log_slope (log_k log_power_spectrum : List ℝ) : Except NumpyError ℝ :=
  match log_k with
  | [] => .error .valueError
  | _ => (polyfit1 (selPairs log_k log_power_spectrum)).map fun c => -c.1

/-- The alpha-estimation path of downscale: log_slope applied to
np.log(k[valid]) and log_power_spectrum[valid]. -/
def estimateAlpha (P : Fld) : Except NumpyError ℝ :=
  log_slope ((validPairs P).map fun p => p.1) ((validPairs P).map fun p => p.2)

/-- Amplitude factor applied to each random phase:
np.sqrt(k_ds_sqr ** (-alpha / 2)). -/
def ampOf (a ksqr : ℝ) : ℝ := Real.sqrt (ksqr ^ (-a / 2 : ℝ))

/-- fg = np.exp(1j * 2 * pi * rand) * sqrt(k_ds_sqr ** (-alpha/2)): the random
spectrum before its zero-frequency element is zeroed.  phi is the uniform
random draw np.random.rand(*k_ds.shape). -/
def fgRand (P : Fld) (a : ℝ) (D : ℕ) (φ : ℕ → ℕ → ℝ) : CFld where
  m := P.m * D
  n := P.n * D
  f := fun i j =>
    Complex.exp (Complex.I * 2 * Real.pi * (φ i j)) *
      ((ampOf a ((kSqrDs P D).f i j) : ℝ) : ℂ)

/-- The spectrum after fg[0, 0] = 0. -/
def fgZ (P : Fld) (a : ℝ) (D : ℕ) (φ : ℕ → ℕ → ℝ) : CFld where
  m := P.m * D
  n := P.n * D
  f := fun i j => if i = 0 ∧ j = 0 then 0 else (fgRand P a D φ).f i j

/-- g = np.fft.ifft2(fg).real, the synthetic noise field before
normalisation. -/
def gRaw (P : Fld) (a : ℝ) (D : ℕ) (φ : ℕ → ℕ → ℝ) : Fld where
  m := P.m * D
  n := P.n * D
  f := fun x y => ((ifft2 (fgZ P a D φ)).f x y).re

/-- Sum of all entries of a field. -/
def fldSum (G : Fld) : ℝ :=
  ∑ x ∈ Finset.range G.m, ∑ y ∈ Finset.range G.n, G.f x y

/-- numpy mean over all entries. -/
def fldMean (G : Fld) : ℝ := fldSum G / ((G.m : ℝ) * (G.n : ℝ))

/-- numpy variance over all entries (mean of squared deviations). -/
def fldVar (G : Fld) : ℝ :=
  (∑ x ∈ Finset.range G.m, ∑ y ∈ Finset.range G.n, (G.f x y - fldMean G) ^ 2) /
    ((G.m : ℝ) * (G.n : ℝ))

/-- numpy standard deviation, the square root of the variance. -/
def fldStd (G : Fld) : ℝ := Real.sqrt (fldVar G)

/-- g /= g.std(): the normalised noise field.  The source performs the
division unconditionally; a zero standard deviation is not guarded. -/
def gNorm (P : Fld) (a : ℝ) (D : ℕ) (φ : ℕ → ℕ → ℝ) : Fld where
  m := P.m * D
  n := P.n * D
  f := fun x y => (gRaw P a D φ).f x y / fldStd (gRaw P a D φ)

/-- r = np.exp(g): the multiplicative synthetic field. -/
def rFld (P : Fld) (a : ℝ) (D : ℕ) (φ : ℕ → ℕ → ℝ) : Fld where
  m := P.m * D
  n := P.n * D
  f := fun x y => Real.exp ((gNorm P a D φ).f x y)

/-- P_u = np.repeat(np.repeat(P, D, axis=0), D, axis=1): the pixel-replicated
(nearest-neighbour) upsample of the input field. -/
def upsample (P : Fld) (D : ℕ) : Fld where
  m := P.m * D
  n := P.n * D
  f := fun i j => P.f (i / D) (j / D)

/-- rad = int(round(ds_factor / sqrt(pi))).  The rounded value is
non-negative, so the cast to a natural number is faithful. -/
def tophatRad (D : ℕ) : ℕ := (round ((D : ℝ) / Real.sqrt Real.pi)).toNat

/-- Side length of the top-hat kernel grid mgrid[-rad : rad + 0.01, ...],
namely 2 * rad + 1 integer offsets per axis. -/
def tophatSize (D : ℕ) : ℕ := 2 * tophatRad D + 1

/-- Membership of kernel cell (u, v) (offsets u - rad, v - rad) in the disc
mx**2 + my**2 <= rad**2. -/
def inDisc (D : ℕ) (u v : ℕ) : Prop :=
  ((u : ℤ) - (tophatRad D : ℤ)) ^ 2 + ((v : ℤ) - (tophatRad D : ℤ)) ^ 2 ≤
    (tophatRad D : ℤ) ^ 2

instance (D u v : ℕ) : Decidable (inDisc D u v) := by
  unfold inDisc
  infer_instance

/-- Number of kernel cells inside the disc; the sum of the 0/1 indicator
kernel before normalisation. -/
def discCount (D : ℕ) : ℕ :=
  ((Finset.range (tophatSize D) ×ˢ Finset.range (tophatSize D)).filter
    fun p => inDisc D p.1 p.2).card

/-- The normalised top-hat kernel: indicator of the disc divided by its sum. -/
def tophatFld (D : ℕ) : Fld where
  m := tophatSize D
  n := tophatSize D
  f := fun u v => if inDisc D u v then 1 / (discCount D : ℝ) else 0

/-- Boundary index folding of scipy.ndimage mode "reflect"
(d c b a | a b c d | d c b a): an arbitrary integer index is folded into
[0, M) with period 2 * M. -/
def reflectIdx (z : ℤ) (M : ℕ) : ℕ :=
  if M = 0 then 0
  else
    (if z % (2 * (M : ℤ)) < (M : ℤ) then z % (2 * (M : ℤ))
     else 2 * (M : ℤ) - 1 - z % (2 * (M : ℤ))).toNat

/-- Input index read by scipy.ndimage.convolve for output index i and kernel
index u, with kernel centre c = size / 2: the reflected image of i + c - u. -/
def cIdx (i c u M : ℕ) : ℕ := reflectIdx ((i : ℤ) + (c : ℤ) - (u : ℤ)) M

/-- scipy.ndimage.convolve(X, K) with the default boundary mode "reflect":
out[i, j] = sum over kernel cells (u, v) of
K[u, v] * X[reflect(i + cm - u), reflect(j + cn - v)], cm = K.m / 2,
cn = K.n / 2.  Output shape equals the input shape. -/
def convolve (X K : Fld) : Fld where
  m := X.m
  n := X.n
  f := fun i j =>
    ∑ u ∈ Finset.range K.m, ∑ v ∈ Finset.range K.n,
      K.f u v * X.f (cIdx i (K.m / 2) u X.m) (cIdx j (K.n / 2) v X.n)

/-- np.ones_like(x). -/
def onesLike (X : Fld) : Fld where
  m := X.m
  n := X.n
  f := fun _ _ => 1

/-- balanced_spatial_average(x, k) = convolve(x, k) / convolve(ones, k). -/
def balanced_spatial_average (x k : Fld) : Fld where
  m := x.m
  n := x.n
  f := fun i j => (convolve x k).f i j / (convolve (onesLike x) k).f i j

/-- P_agg = balanced_spatial_average(P_u, tophat). -/
def pAgg (P : Fld) (D : ℕ) : Fld :=
  balanced_spatial_average (upsample P D) (tophatFld D)

/-- r_agg = balanced_spatial_average(r, tophat). -/
def rAgg (P : Fld) (a : ℝ) (D : ℕ) (φ : ℕ → ℕ → ℝ) : Fld :=
  balanced_spatial_average (rFld P a D φ) (tophatFld D)

/-- The elementwise rescaling array P_agg / r_agg. -/
def adjFld (P : Fld) (a : ℝ) (D : ℕ) (φ : ℕ → ℕ → ℝ) : Fld where
  m := P.m * D
  n := P.n * D
  f := fun i j => (pAgg P D).f i j / (rAgg P a D φ).f i j

/-- The field after r *= P_agg / r_agg, before optional thresholding. -/
def preOut (P : Fld) (a : ℝ) (D : ℕ) (φ : ℕ → ℕ → ℝ) : Fld where
  m := P.m * D
  n := P.n * D
  f := fun i j => (rFld P a D φ).f i j * (adjFld P a D φ).f i j

open Classical in
/-- r[r < threshold] = 0. -/
def zeroBelow (t : ℝ) (X : Fld) : Fld where
  m := X.m
  n := X.n
  f := fun i j => if X.f i j < t then 0 else X.f i j

/-- downscale with the spectral slope already fixed (the body of the source
after the alpha estimation). -/
def downscaleWith (P : Fld) (a : ℝ) (D : ℕ) (t : Option ℝ) (φ : ℕ → ℕ → ℝ) :
    Fld :=
  match t with
  | none => preOut P a D φ
  | some tv => zeroBelow tv (preOut P a D φ)

/-- downscale(P, alpha, ds_factor, threshold): when alpha is absent it is
estimated from the input field; errors raised by the numpy calls of the
estimation propagate to the caller. -/
def downscale (P : Fld) (alpha : Option ℝ) (D : ℕ) (t : Option ℝ)
    (φ : ℕ → ℕ → ℝ) : Except NumpyError Fld :=
  match alpha with
  | some a => .ok (downscaleWith P a D t φ)
  | none => (estimateAlpha P).map fun a => downscaleWith P a D t φ

/-- Lower bound of the selection range as the specification words it: the
minimum of log k raised by one sixth of the span of the log-frequency range. -/
def specLo (lk : List ℝ) : ℝ := listMin lk + (listMax lk - listMin lk) / 6

/-- Upper bound of the selection range as the specification words it: the
maximum of log k lowered by one sixth of the span. -/
def specHi (lk : List ℝ) : ℝ := listMax lk - (listMax lk - listMin lk) / 6

open Classical in
/-- The selection as the specification words it: the points whose log k lies
in the central two-thirds of the log-frequency range. -/
def specSel (lk lp : List ℝ) : List (ℝ × ℝ) :=
  (lk.zip lp).filterMap fun p =>
    if specLo lk ≤ p.1 ∧ p.1 ≤ specHi lk then some p else none

/-- Sample mean of the abscissae. -/
def xbar (pts : List (ℝ × ℝ)) : ℝ := sumX pts / (pts.length : ℝ)

/-- Sample mean of the ordinates. -/
def ybar (pts : List (ℝ × ℝ)) : ℝ := sumY pts / (pts.length : ℝ)

/-- Ordinary least-squares slope in covariance form, the formulation of the
specification: sum of (x - xbar) * (y - ybar) over sum of (x - xbar)^2. -/
def covSlope (pts : List (ℝ × ℝ)) : ℝ :=
  ((pts.map fun p => (p.1 - xbar pts) * (p.2 - ybar pts)).sum) /
    ((pts.map fun p => (p.1 - xbar pts) ^ 2).sum)

/-- The spectral slope as the specification describes it: the negation of the
ordinary least-squares slope of log power against log k over the valid points
whose log k lies in the central two-thirds of the log-frequency range. -/
def specAlpha (P : Fld) : ℝ :=
  -covSlope (specSel ((validPairs P).map fun p => p.1)
    ((validPairs P).map fun p => p.2))

/-- Whether the input index i + c - u read for output index i and kernel
index u lies inside the valid data region of extent M. -/
def inBounds (i c u M : ℕ) : Prop :=
  0 ≤ (i : ℤ) + (c : ℤ) - (u : ℤ) ∧ (i : ℤ) + (c : ℤ) - (u : ℤ) < (M : ℤ)

instance (i c u M : ℕ) : Decidable (inBounds i c u M) := by
  unfold inBounds
  infer_instance

open Classical in
/-- The edge average the specification describes: a kernel-weighted mean of
the data values actually covered by the kernel, renormalised by the kernel
weight that fell inside the valid data region (no padding of any kind). -/
def coverageAvg (X K : Fld) (i j : ℕ) : ℝ :=
  (∑ u ∈ Finset.range K.m, ∑ v ∈ Finset.range K.n,
    if inBounds i (K.m / 2) u X.m ∧ inBounds j (K.n / 2) v X.n then
      K.f u v * X.f ((i : ℤ) + ((K.m / 2 : ℕ) : ℤ) - u).toNat
        (((j : ℤ) + ((K.n / 2 : ℕ) : ℤ) - v).toNat)
    else 0) /
  (∑ u ∈ Finset.range K.m, ∑ v ∈ Finset.range K.n,
    if inBounds i (K.m / 2) u X.m ∧ inBounds j (K.n / 2) v X.n then K.f u v
    else 0)

/-- Concrete 1 by 1 input field with the single value 1. -/
def oneCell : Fld := ⟨1, 1, fun _ _ => 1⟩

/-- Concrete 2 by 2 input field with a single non-zero cell, whose Fourier
magnitudes are all 1 (so every log power is finite). -/
def delta2 : Fld := ⟨2, 2, fun i j => if i = 0 ∧ j = 0 then 1 else 0⟩

/-- Concrete 8 by 1 input field with a single non-zero cell. -/
def delta8 : Fld := ⟨8, 1, fun i _ => if i = 0 then 1 else 0⟩

/-- Concrete 1 by 3 field 0, 1, 0 used to exhibit the boundary behaviour of
the balanced spatial average. -/
def edgeX : Fld := ⟨1, 3, fun _ j => if j = 1 then 1 else 0⟩

/-- Concrete flat 1 by 3 kernel of weight one third. -/
def flatK : Fld := ⟨1, 3, fun _ _ => 1 / 3⟩

/-- Zero random draw (all phases zero). -/
def phase0 : ℕ → ℕ → ℝ := fun _ _ => 0

/-- Concrete 2 by 1 input field with value 1 (only its shape matters for the
synthesizer witness). -/
def twoCell : Fld := ⟨2, 1, fun _ _ => 1⟩

/-! Helper lemmas shared by several theorems. -/

theorem downscaleWith_shape (P : Fld) (a : ℝ) (D : ℕ) (t : Option ℝ)
    (φ : ℕ → ℕ → ℝ) :
    (downscaleWith P a D t φ).m = P.m * D ∧
      (downscaleWith P a D t φ).n = P.n * D := by
  cases t <;> exact ⟨rfl, rfl⟩

theorem reflectIdx_one (z : ℤ) : reflectIdx z 1 = 0 := by
  unfold reflectIdx
  have h0 : 0 ≤ z % (2 * (1 : ℤ)) := Int.emod_nonneg z (by norm_num)
  have h1 : z % (2 * (1 : ℤ)) < 2 * (1 : ℤ) := Int.emod_lt_of_pos z (by norm_num)
  rw [if_neg (by norm_num : ¬(1 : ℕ) = 0)]
  split <;> omega

theorem convolve_f (X K : Fld) (i j : ℕ) :
    (convolve X K).f i j =
      ∑ u ∈ Finset.range K.m, ∑ v ∈ Finset.range K.n,
        K.f u v * X.f (cIdx i (K.m / 2) u X.m) (cIdx j (K.n / 2) v X.n) := rfl

theorem bsa_f (x k : Fld) (i j : ℕ) :
    (balanced_spatial_average x k).f i j =
      (convolve x k).f i j / (convolve (onesLike x) k).f i j := rfl

theorem tophat_nonneg (D u v : ℕ) : 0 ≤ (tophatFld D).f u v := by
  simp only [tophatFld]
  split
  · positivity
  · exact le_refl 0

theorem discCount_pos (D : ℕ) : 0 < discCount D := by
  apply Finset.card_pos.mpr
  refine ⟨(tophatRad D, tophatRad D), ?_⟩
  rw [Finset.mem_filter]
  constructor
  · rw [Finset.mem_product]
    constructor <;> (rw [Finset.mem_range]; unfold tophatSize; omega)
  · unfold inDisc
    simp only [sub_self]
    positivity

theorem tophat_center_pos (D : ℕ) :
    0 < (tophatFld D).f (tophatRad D) (tophatRad D) := by
  have hd : (0 : ℝ) < (discCount D : ℝ) := by
    exact_mod_cast discCount_pos D
  simp only [tophatFld]
  rw [if_pos]
  · positivity
  · unfold inDisc
    simp only [sub_self]
    positivity

theorem convolve_tophat_pos (D : ℕ) (X : Fld) (hX : ∀ x y, 0 < X.f x y)
    (i j : ℕ) : 0 < (convolve X (tophatFld D)).f i j := by
  rw [convolve_f]
  have hmem : tophatRad D ∈ Finset.range (tophatFld D).m := by
    rw [Finset.mem_range]
    show tophatRad D < tophatSize D
    unfold tophatSize
    omega
  have hmem' : tophatRad D ∈ Finset.range (tophatFld D).n := hmem
  apply Finset.sum_pos'
  · intro u _
    apply Finset.sum_nonneg
    intro v _
    exact mul_nonneg (tophat_nonneg D u v) (hX _ _).le
  · refine ⟨tophatRad D, hmem, Finset.sum_pos' ?_ ?_⟩
    · intro v _
      exact mul_nonneg (tophat_nonneg D _ v) (hX _ _).le
    · exact ⟨tophatRad D, hmem', mul_pos (tophat_center_pos D) (hX _ _)⟩

theorem convolve_ones_tophat_pos (D : ℕ) (X : Fld) (i j : ℕ) :
    0 < (convolve (onesLike X) (tophatFld D)).f i j :=
  convolve_tophat_pos D (onesLike X) (fun _ _ => one_pos) i j

theorem rFld_pos (P : Fld) (a : ℝ) (D : ℕ) (φ : ℕ → ℕ → ℝ) (x y : ℕ) :
    0 < (rFld P a D φ).f x y := Real.exp_pos _

theorem rAgg_pos (P : Fld) (a : ℝ) (D : ℕ) (φ : ℕ → ℕ → ℝ) (i j : ℕ) :
    0 < (rAgg P a D φ).f i j :=
  div_pos (convolve_tophat_pos D _ (rFld_pos P a D φ) i j)
    (convolve_ones_tophat_pos D _ i j)

theorem pAgg_nonneg (P : Fld) (D : ℕ) (hP : ∀ x y, 0 ≤ P.f x y) (i j : ℕ) :
    0 ≤ (pAgg P D).f i j := by
  have h1 : 0 ≤ (convolve (upsample P D) (tophatFld D)).f i j := by
    rw [convolve_f]
    apply Finset.sum_nonneg
    intro u _
    apply Finset.sum_nonneg
    intro v _
    exact mul_nonneg (tophat_nonneg D u v) (hP _ _)
  have h2 : 0 ≤ (convolve (onesLike (upsample P D)) (tophatFld D)).f i j :=
    (convolve_ones_tophat_pos D _ i j).le
  exact div_nonneg h1 h2

/-! Claim C1: shape law of downscale. -/

/-- C1: for every input field and factor, any field returned by downscale has
shape exactly (m * factor, n * factor). -/
theorem downscale_shape (P : Fld) (alpha : Option ℝ) (D : ℕ) (t : Option ℝ)
    (φ : ℕ → ℕ → ℝ) (r : Fld) (h : downscale P alpha D t φ = Except.ok r) :
    r.m = P.m * D ∧ r.n = P.n * D := by
  cases alpha with
  | some a =>
      simp only [downscale] at h
      cases h
      exact downscaleWith_shape P a D t φ
  | none =>
      simp only [downscale] at h
      cases he : estimateAlpha P with
      | error e => rw [he] at h; simp [Except.map] at h
      | ok a =>
          rw [he] at h
          simp only [Except.map] at h
          cases h
          exact downscaleWith_shape P a D t φ

/-- Witness for C1 at a concrete input. -/
theorem downscale_shape_witness :
    (downscaleWith oneCell 1 2 none phase0).m = oneCell.m * 2 ∧
      (downscaleWith oneCell 1 2 none phase0).n = oneCell.n * 2 :=
  downscale_shape oneCell (some 1) 2 none phase0
    (downscaleWith oneCell 1 2 none phase0) rfl

/-! Claim C5: the zero-variance normalisation is not guarded. -/

/-- C5: at the 1 by 1 input with factor 1 the synthesized noise field is
identically zero, so its standard deviation is exactly zero, yet downscale
returns an ordinary value: the division g /= g.std() is performed with a zero
divisor and no error of any kind is surfaced (numpy silently produces nan). -/
theorem downscale_unguarded_zero_std :
    fldStd (gRaw oneCell 1 1 phase0) = 0 ∧
      downscale oneCell (some 1) 1 none phase0 =
        Except.ok (downscaleWith oneCell 1 1 none phase0) := by
  constructor
  · have h : fldVar (gRaw oneCell 1 1 phase0) = 0 := by
      norm_num [fldVar, fldMean, fldSum, gRaw, ifft2, fgZ, oneCell,
        Finset.sum_range_one]
    rw [fldStd, h, Real.sqrt_zero]
  · rfl

/-! Claim C7: the spectral amplitude law. -/

/-- C7 counterexample: at the upsampled frequency coordinate (2, 0) of the
1 by 1 input with factor 4, the radial magnitude is k = 2 (k squared is 4);
the amplitude the code applies is sqrt((k^2) ^ (-alpha/2)) = 1/2 for
alpha = 2, whereas k ^ (-alpha) = 1/4: the claimed identity
sqrt((k^2) ^ (-alpha/2)) = k ^ (-alpha) is false. -/
theorem amp_counterexample :
    (kSqrDs oneCell 4).f 2 0 = 4 ∧
      ampOf 2 ((kSqrDs oneCell 4).f 2 0) = 1 / 2 ∧
      Real.sqrt ((kSqrDs oneCell 4).f 2 0) ^ (-(2 : ℝ)) = 1 / 4 ∧
      ampOf 2 ((kSqrDs oneCell 4).f 2 0) ≠
        Real.sqrt ((kSqrDs oneCell 4).f 2 0) ^ (-(2 : ℝ)) := by
  have hk : (kSqrDs oneCell 4).f 2 0 = 4 := by
    norm_num [kSqrDs, fftfreq, oneCell]
  have hamp : ampOf 2 (4 : ℝ) = 1 / 2 := by
    unfold ampOf
    rw [show (-(2 : ℝ) / 2) = -1 by norm_num, Real.rpow_neg_one]
    rw [show ((4 : ℝ))⁻¹ = (1 / 2 : ℝ) ^ 2 by norm_num]
    rw [Real.sqrt_sq (by norm_num : (0 : ℝ) ≤ 1 / 2)]
  have hsq : Real.sqrt (4 : ℝ) = 2 := by
    rw [show (4 : ℝ) = 2 ^ 2 by norm_num, Real.sqrt_sq (by norm_num : (0:ℝ) ≤ 2)]
  have hpow : (2 : ℝ) ^ (-(2 : ℝ)) = 1 / 4 := by
    rw [Real.rpow_neg (by norm_num : (0:ℝ) ≤ 2)]
    rw [show ((2 : ℝ) : ℝ) ^ (2 : ℝ) = (2 : ℝ) ^ ((2 : ℕ) : ℝ) by norm_num]
    rw [Real.rpow_natCast]
    norm_num
  refine ⟨hk, ?_, ?_, ?_⟩
  · rw [hk]; exact hamp
  · rw [hk, hsq]; exact hpow
  · rw [hk, hsq, hamp, hpow]; norm_num

/-- C7 amended: for every positive radial magnitude k and every slope alpha,
the amplitude sqrt((k^2) ^ (-alpha/2)) applied by the code equals
k ^ (-alpha/2), so the squared magnitude (the spectral power) of the random
spectrum follows the power law k ^ (-alpha). -/
theorem amp_power_law (a k : ℝ) (hk : 0 < k) :
    ampOf a (k ^ 2) = k ^ (-a / 2 : ℝ) ∧
      ampOf a (k ^ 2) ^ 2 = k ^ (-a : ℝ) := by
  have hk0 : (0 : ℝ) ≤ k := hk.le
  have hsq : (k ^ 2 : ℝ) = k ^ ((2 : ℕ) : ℝ) := (Real.rpow_natCast k 2).symm
  have h1 : (k ^ 2 : ℝ) ^ (-a / 2 : ℝ) = k ^ (-a : ℝ) := by
    rw [hsq, ← Real.rpow_mul hk0]
    congr 1
    push_cast
    ring
  have h2 : ampOf a (k ^ 2) = k ^ (-a / 2 : ℝ) := by
    unfold ampOf
    rw [h1, Real.sqrt_eq_rpow, ← Real.rpow_mul hk0]
    congr 1
    ring
  refine ⟨h2, ?_⟩
  rw [h2, ← Real.rpow_natCast (k ^ (-a / 2 : ℝ)) 2, ← Real.rpow_mul hk0]
  congr 1
  push_cast
  ring

/-- Witness for the amended C7 at alpha = 2, k = 2. -/
theorem amp_power_law_witness :
    (0 : ℝ) < 2 ∧
      (ampOf 2 ((2 : ℝ) ^ 2) = (2 : ℝ) ^ (-(2 : ℝ) / 2 : ℝ) ∧
        ampOf 2 ((2 : ℝ) ^ 2) ^ 2 = (2 : ℝ) ^ (-(2 : ℝ) : ℝ)) :=
  ⟨by norm_num, amp_power_law 2 2 (by norm_num)⟩

/-! Claim C10: the renormalization never divides by a zero local average of
the synthetic field. -/

/-- C10: the synthetic field r = exp(g) is strictly positive everywhere, and
since the top-hat kernel is non-negative with its centre cell inside the disc
for every factor, the balanced spatial average r_agg of r is strictly
positive at every point, so the renormalization divisor is never zero. -/
theorem renormalizer_divisor_pos (P : Fld) (a : ℝ) (D : ℕ) (φ : ℕ → ℕ → ℝ)
    (i j : ℕ) :
    0 < (rFld P a D φ).f i j ∧ 0 < (rAgg P a D φ).f i j ∧
      (rAgg P a D φ).f i j ≠ 0 :=
  ⟨rFld_pos P a D φ i j, rAgg_pos P a D φ i j, (rAgg_pos P a D φ i j).ne'⟩

/-! Claim C8: non-negativity and thresholding idempotence. -/

/-- C8: for a non-negative input field every output value of downscale is
non-negative, with any threshold every output value is either zero or at
least the threshold, and re-zeroing values below the threshold is a no-op. -/
theorem downscale_nonneg_threshold (P : Fld) (a : ℝ) (D : ℕ) (t : Option ℝ)
    (tv : ℝ) (φ : ℕ → ℕ → ℝ) (i j : ℕ) (hP : ∀ x y, 0 ≤ P.f x y) :
    0 ≤ (downscaleWith P a D t φ).f i j ∧
      ((downscaleWith P a D (some tv) φ).f i j = 0 ∨
        tv ≤ (downscaleWith P a D (some tv) φ).f i j) ∧
      (zeroBelow tv (downscaleWith P a D (some tv) φ)).f i j =
        (downscaleWith P a D (some tv) φ).f i j := by
  have hpre : 0 ≤ (preOut P a D φ).f i j := by
    show 0 ≤ (rFld P a D φ).f i j * (adjFld P a D φ).f i j
    apply mul_nonneg (rFld_pos P a D φ i j).le
    show (0 : ℝ) ≤ (pAgg P D).f i j / (rAgg P a D φ).f i j
    exact div_nonneg (pAgg_nonneg P D hP i j) (rAgg_pos P a D φ i j).le
  refine ⟨?_, ?_, ?_⟩
  · cases t with
    | none => exact hpre
    | some tv' =>
        show 0 ≤ (zeroBelow tv' (preOut P a D φ)).f i j
        simp only [zeroBelow]
        split
        · exact le_refl 0
        · exact hpre
  · show (zeroBelow tv (preOut P a D φ)).f i j = 0 ∨
      tv ≤ (zeroBelow tv (preOut P a D φ)).f i j
    simp only [zeroBelow]
    split
    · exact Or.inl rfl
    · next h => exact Or.inr (not_lt.mp h)
  · show (zeroBelow tv (zeroBelow tv (preOut P a D φ))).f i j =
      (zeroBelow tv (preOut P a D φ)).f i j
    simp only [zeroBelow]
    by_cases h : (preOut P a D φ).f i j < tv
    · rw [if_pos h]
      split <;> rfl
    · rw [if_neg h, if_neg h]

/-- Witness for C8 at a concrete non-negative input. -/
theorem downscale_nonneg_threshold_witness :
    0 ≤ (downscaleWith oneCell 1 1 none phase0).f 0 0 ∧
      ((downscaleWith oneCell 1 1 (some (1 / 2)) phase0).f 0 0 = 0 ∨
        1 / 2 ≤ (downscaleWith oneCell 1 1 (some (1 / 2)) phase0).f 0 0) ∧
      (zeroBelow (1 / 2) (downscaleWith oneCell 1 1 (some (1 / 2)) phase0)).f 0 0 =
        (downscaleWith oneCell 1 1 (some (1 / 2)) phase0).f 0 0 :=
  downscale_nonneg_threshold oneCell 1 1 none (1 / 2) phase0 0 0
    (fun _ _ => by norm_num [oneCell])

/-! Claim C2: the conservative renormalization. -/

/-- C2: the renormalizer multiplies the synthetic field pointwise by the
ratio of balanced local averages P_agg / r_agg; consequently, wherever the
ratio field and the pixel-replicated original are constant over the kernel
footprint (the exact rendering of the disc-kernel approximation being exact),
the disc-kernel balanced average of the pre-threshold output equals P_agg and
equals the corresponding value of the upsampled original field. -/
theorem renormalizer_conservation (P : Fld) (a : ℝ) (D : ℕ) (φ : ℕ → ℕ → ℝ)
    (i j : ℕ)
    (hconst : ∀ u v : ℕ,
      (adjFld P a D φ).f (cIdx i (tophatSize D / 2) u (P.m * D))
          (cIdx j (tophatSize D / 2) v (P.n * D)) =
        (adjFld P a D φ).f i j)
    (hPu : ∀ u v : ℕ,
      (upsample P D).f (cIdx i (tophatSize D / 2) u (P.m * D))
          (cIdx j (tophatSize D / 2) v (P.n * D)) =
        (upsample P D).f i j) :
    (preOut P a D φ).f i j =
        (rFld P a D φ).f i j * ((pAgg P D).f i j / (rAgg P a D φ).f i j) ∧
      (balanced_spatial_average (preOut P a D φ) (tophatFld D)).f i j =
        (pAgg P D).f i j ∧
      (balanced_spatial_average (preOut P a D φ) (tophatFld D)).f i j =
        (upsample P D).f i j := by
  have hrne : (rAgg P a D φ).f i j ≠ 0 := (rAgg_pos P a D φ i j).ne'
  have honese : onesLike (preOut P a D φ) = onesLike (rFld P a D φ) := rfl
  have hnum : (convolve (preOut P a D φ) (tophatFld D)).f i j =
      (adjFld P a D φ).f i j * (convolve (rFld P a D φ) (tophatFld D)).f i j := by
    rw [convolve_f, convolve_f, Finset.mul_sum]
    simp only [show (preOut P a D φ).m = P.m * D from rfl,
      show (preOut P a D φ).n = P.n * D from rfl,
      show (rFld P a D φ).m = P.m * D from rfl,
      show (rFld P a D φ).n = P.n * D from rfl,
      show (tophatFld D).m = tophatSize D from rfl,
      show (tophatFld D).n = tophatSize D from rfl]
    refine Finset.sum_congr rfl fun u _ => ?_
    rw [Finset.mul_sum]
    refine Finset.sum_congr rfl fun v _ => ?_
    have hpe : (preOut P a D φ).f (cIdx i (tophatSize D / 2) u (P.m * D))
        (cIdx j (tophatSize D / 2) v (P.n * D)) =
        (rFld P a D φ).f (cIdx i (tophatSize D / 2) u (P.m * D))
          (cIdx j (tophatSize D / 2) v (P.n * D)) *
        (adjFld P a D φ).f (cIdx i (tophatSize D / 2) u (P.m * D))
          (cIdx j (tophatSize D / 2) v (P.n * D)) := rfl
    rw [hpe, hconst u v]
    ring
  have hbsa : (balanced_spatial_average (preOut P a D φ) (tophatFld D)).f i j =
      (adjFld P a D φ).f i j * (rAgg P a D φ).f i j := by
    rw [bsa_f, hnum, honese]
    rw [mul_div_assoc]
    rfl
  have hadj : (adjFld P a D φ).f i j =
      (pAgg P D).f i j / (rAgg P a D φ).f i j := rfl
  have h2 : (balanced_spatial_average (preOut P a D φ) (tophatFld D)).f i j =
      (pAgg P D).f i j := by
    rw [hbsa, hadj, div_mul_cancel₀ _ hrne]
  have hcones : (convolve (onesLike (upsample P D)) (tophatFld D)).f i j ≠ 0 :=
    (convolve_ones_tophat_pos D _ i j).ne'
  have h3 : (pAgg P D).f i j = (upsample P D).f i j := by
    have hnum2 : (convolve (upsample P D) (tophatFld D)).f i j =
        (upsample P D).f i j *
          (convolve (onesLike (upsample P D)) (tophatFld D)).f i j := by
      rw [convolve_f, convolve_f, Finset.mul_sum]
      simp only [show (upsample P D).m = P.m * D from rfl,
        show (upsample P D).n = P.n * D from rfl,
        show (onesLike (upsample P D)).m = P.m * D from rfl,
        show (onesLike (upsample P D)).n = P.n * D from rfl,
        show (tophatFld D).m = tophatSize D from rfl,
        show (tophatFld D).n = tophatSize D from rfl]
      refine Finset.sum_congr rfl fun u _ => ?_
      rw [Finset.mul_sum]
      refine Finset.sum_congr rfl fun v _ => ?_
      rw [hPu u v]
      show (tophatFld D).f u v * (upsample P D).f i j =
        (upsample P D).f i j * ((tophatFld D).f u v * 1)
      ring
    show (convolve (upsample P D) (tophatFld D)).f i j /
        (convolve (onesLike (upsample P D)) (tophatFld D)).f i j =
      (upsample P D).f i j
    rw [hnum2, mul_div_assoc, div_self hcones, mul_one]
  exact ⟨rfl, h2, h2.trans h3⟩

/-- Witness for C2 at the 1 by 1 input with factor 1, where every reflected
index collapses to the single cell and both constancy hypotheses hold
definitionally. -/
theorem renormalizer_conservation_witness :
    (balanced_spatial_average (preOut oneCell 1 1 phase0) (tophatFld 1)).f 0 0 =
      (upsample oneCell 1).f 0 0 := by
  have hcm : ∀ z : ℤ, reflectIdx z (oneCell.m * 1) = 0 := fun z => reflectIdx_one z
  have hcn : ∀ z : ℤ, reflectIdx z (oneCell.n * 1) = 0 := fun z => reflectIdx_one z
  exact (renormalizer_conservation oneCell 1 1 phase0 0 0
    (fun u v => by simp only [cIdx, hcm, hcn])
    (fun u v => by simp only [cIdx, hcm, hcn])).2.2

/-! Claim C9: the balanced spatial average and its boundary behaviour. -/

/-- C9 counterexample: for the 1 by 3 field (0, 1, 0) and the flat 1 by 3
kernel of weight 1/3, the balanced spatial average at the left edge pixel is
1/3 (the reflect boundary mode of scipy duplicates the edge value), whereas
the average over the kernel coverage actually available inside the data
region is (0 + 1) / 2 = 1/2: the two notions differ. -/
theorem bsa_not_coverage_average :
    (balanced_spatial_average edgeX flatK).f 0 0 = 1 / 3 ∧
      coverageAvg edgeX flatK 0 0 = 1 / 2 ∧
      (balanced_spatial_average edgeX flatK).f 0 0 ≠
        coverageAvg edgeX flatK 0 0 := by
  have hr1 : reflectIdx (1 : ℤ) 3 = 1 := by decide
  have hr0 : reflectIdx (0 : ℤ) 3 = 0 := by decide
  have hrm : reflectIdx (-1 : ℤ) 3 = 0 := by decide
  have hrr : reflectIdx (0 : ℤ) 1 = 0 := by decide
  have h1 : (balanced_spatial_average edgeX flatK).f 0 0 = 1 / 3 := by
    rw [bsa_f, convolve_f, convolve_f]
    simp only [edgeX, flatK, onesLike, cIdx]
    norm_num [Finset.sum_range_succ, hr1, hr0, hrm, hrr]
  have h2 : coverageAvg edgeX flatK 0 0 = 1 / 2 := by
    unfold coverageAvg
    simp only [edgeX, flatK]
    norm_num [Finset.sum_range_succ, inBounds]
  exact ⟨h1, h2, by rw [h1, h2]; norm_num⟩

theorem reflectIdx_lt (z : ℤ) (M : ℕ) (hM : 0 < M) : reflectIdx z M < M := by
  unfold reflectIdx
  rw [if_neg (by omega : ¬M = 0)]
  have h2 : (0 : ℤ) < 2 * (M : ℤ) := by positivity
  have h0 : 0 ≤ z % (2 * (M : ℤ)) := Int.emod_nonneg z (by omega)
  have h1 : z % (2 * (M : ℤ)) < 2 * (M : ℤ) := Int.emod_lt_of_pos z h2
  generalize hzr : z % (2 * (M : ℤ)) = r at h0 h1 ⊢
  split <;> omega

/-- C9 amended: the locally-averaged value equals
convolve(X, K) / convolve(ones, K) exactly as claimed; but because scipy's
convolve uses the reflect boundary mode, the denominator equals the full
kernel weight everywhere, and every sample entering the average is an
in-bounds data value read through a reflected index — edge pixels are
averaged over mirrored copies of in-bounds values rather than over the
truncated kernel coverage. -/
theorem bsa_reflected_weighted_mean (X K : Fld) (i j : ℕ) (hm : 0 < X.m)
    (hn : 0 < X.n) :
    (balanced_spatial_average X K).f i j =
        (convolve X K).f i j / (convolve (onesLike X) K).f i j ∧
      (convolve (onesLike X) K).f i j =
        ∑ u ∈ Finset.range K.m, ∑ v ∈ Finset.range K.n, K.f u v ∧
      ∀ u v : ℕ, cIdx i (K.m / 2) u X.m < X.m ∧ cIdx j (K.n / 2) v X.n < X.n := by
  refine ⟨rfl, ?_, ?_⟩
  · rw [convolve_f]
    refine Finset.sum_congr rfl fun u _ => Finset.sum_congr rfl fun v _ => ?_
    show K.f u v * 1 = K.f u v
    rw [mul_one]
  · intro u v
    exact ⟨reflectIdx_lt _ _ hm, reflectIdx_lt _ _ hn⟩

/-- Witness for the amended C9 at a concrete field and kernel. -/
theorem bsa_reflected_weighted_mean_witness :
    (balanced_spatial_average edgeX flatK).f 0 0 =
        (convolve edgeX flatK).f 0 0 / (convolve (onesLike edgeX) flatK).f 0 0 ∧
      (convolve (onesLike edgeX) flatK).f 0 0 =
        ∑ u ∈ Finset.range flatK.m, ∑ v ∈ Finset.range flatK.n, flatK.f u v ∧
      ∀ u v : ℕ,
        cIdx 0 (flatK.m / 2) u edgeX.m < edgeX.m ∧
          cIdx 0 (flatK.n / 2) v edgeX.n < edgeX.n :=
  bsa_reflected_weighted_mean edgeX flatK 0 0 (by norm_num [edgeX])
    (by norm_num [edgeX])

/-! Claim C4: slope estimation on a degenerate 2 by 2 field. -/

/-- C4: on the 2 by 2 field with a single non-zero cell every Fourier
magnitude is 1, the three non-zero frequencies have log k equal to
log(1/2), log(1/2) and log(1/2)/2, and the shrunk central range excludes all
of them, so the selected sample is empty and numpy.polyfit is invoked on
empty vectors: the code surfaces only the generic TypeError of numpy.polyfit
(the computed num_selected is never checked), not a distinct
insufficient-data error. -/
theorem log_slope_no_insufficient_data_guard :
    selPairs ((validPairs delta2).map fun p => p.1)
        ((validPairs delta2).map fun p => p.2) = [] ∧
      estimateAlpha delta2 = Except.error NumpyError.typeError := by
  have hrm : rowMajor 2 2 = [(0, 0), (0, 1), (1, 0), (1, 1)] := by decide
  have hf0 : fftfreq 2 1 0 = 0 := by norm_num [fftfreq]
  have hf1 : fftfreq 2 1 1 = -(1 / 2) := by norm_num [fftfreq]
  have hk00 : (kGrid delta2).f 0 0 = 0 := by
    show Real.sqrt (fftfreq 2 1 0 ^ 2 + fftfreq 2 1 0 ^ 2) = 0
    rw [hf0]
    norm_num
  have hk01 : (kGrid delta2).f 0 1 = 1 / 2 := by
    show Real.sqrt (fftfreq 2 1 0 ^ 2 + fftfreq 2 1 1 ^ 2) = 1 / 2
    rw [hf0, hf1, show ((0 : ℝ) ^ 2 + (-(1 / 2)) ^ 2) = (1 / 2) ^ 2 by norm_num]
    exact Real.sqrt_sq (by norm_num)
  have hk10 : (kGrid delta2).f 1 0 = 1 / 2 := by
    show Real.sqrt (fftfreq 2 1 1 ^ 2 + fftfreq 2 1 0 ^ 2) = 1 / 2
    rw [hf0, hf1, show ((-(1 / 2) : ℝ) ^ 2 + 0 ^ 2) = (1 / 2) ^ 2 by norm_num]
    exact Real.sqrt_sq (by norm_num)
  have hk11 : (kGrid delta2).f 1 1 = Real.sqrt (1 / 2) := by
    show Real.sqrt (fftfreq 2 1 1 ^ 2 + fftfreq 2 1 1 ^ 2) = Real.sqrt (1 / 2)
    rw [hf1]
    congr 1
    norm_num
  have hfp : ∀ i j : ℕ, (fft2 delta2).f i j = 1 := by
    intro i j
    simp only [fft2, delta2, Finset.sum_range_succ, Finset.sum_range_zero]
    norm_num [Complex.exp_zero]
  have habs : ∀ i j : ℕ, fpAbsSq delta2 i j = 1 := by
    intro i j
    unfold fpAbsSq
    rw [hfp]
    simp
  have hlp : ∀ i j : ℕ, logPower delta2 i j = 0 := by
    intro i j
    unfold logPower
    rw [habs, Real.log_one]
  have hc00 : ¬((kGrid delta2).f 0 0 ≠ 0 ∧ fpAbsSq delta2 0 0 ≠ 0) :=
    fun h => h.1 hk00
  have hc01 : (kGrid delta2).f 0 1 ≠ 0 ∧ fpAbsSq delta2 0 1 ≠ 0 :=
    ⟨by rw [hk01]; norm_num, by rw [habs]; norm_num⟩
  have hc10 : (kGrid delta2).f 1 0 ≠ 0 ∧ fpAbsSq delta2 1 0 ≠ 0 :=
    ⟨by rw [hk10]; norm_num, by rw [habs]; norm_num⟩
  have hc11 : (kGrid delta2).f 1 1 ≠ 0 ∧ fpAbsSq delta2 1 1 ≠ 0 :=
    ⟨by rw [hk11]; positivity, by rw [habs]; norm_num⟩
  have hvp : validPairs delta2 =
      [(Real.log (1 / 2), 0), (Real.log (1 / 2), 0), (Real.log (1 / 2) / 2, 0)] := by
    unfold validPairs
    rw [show delta2.m = 2 from rfl, show delta2.n = 2 from rfl, hrm]
    simp only [List.filterMap_cons, List.filterMap_nil]
    rw [if_neg hc00, if_pos hc01, if_pos hc10, if_pos hc11]
    simp only [hk01, hk10, hk11, hlp]
    rw [Real.log_sqrt (by norm_num : (0 : ℝ) ≤ 1 / 2)]
  have hA : Real.log (1 / 2 : ℝ) < 0 := Real.log_neg (by norm_num) (by norm_num)
  have hmapf : (validPairs delta2).map (fun p => p.1) =
      [Real.log (1 / 2), Real.log (1 / 2), Real.log (1 / 2) / 2] := by
    rw [hvp]
    rfl
  have hmaps : (validPairs delta2).map (fun p => p.2) = [0, 0, 0] := by
    rw [hvp]
    rfl
  have hmin : listMin [Real.log (1 / 2), Real.log (1 / 2), Real.log (1 / 2) / 2] =
      Real.log (1 / 2) := by
    show min (min (Real.log (1 / 2)) (Real.log (1 / 2))) (Real.log (1 / 2) / 2) =
      Real.log (1 / 2)
    rw [min_self]
    exact min_eq_left (by linarith)
  have hmax : listMax [Real.log (1 / 2), Real.log (1 / 2), Real.log (1 / 2) / 2] =
      Real.log (1 / 2) / 2 := by
    show max (max (Real.log (1 / 2)) (Real.log (1 / 2))) (Real.log (1 / 2) / 2) =
      Real.log (1 / 2) / 2
    rw [max_self]
    exact max_eq_right (by linarith)
  have hlo : ¬(shrinkLo [Real.log (1 / 2), Real.log (1 / 2), Real.log (1 / 2) / 2] ≤
      Real.log (1 / 2)) := by
    unfold shrinkLo
    rw [hmin, hmax]
    intro h
    linarith
  have hhi : ¬(Real.log (1 / 2) / 2 ≤
      shrinkHi [Real.log (1 / 2), Real.log (1 / 2), Real.log (1 / 2) / 2]) := by
    unfold shrinkHi
    rw [hmin, hmax]
    intro h
    linarith
  have hn1 : ¬(shrinkLo [Real.log (1 / 2), Real.log (1 / 2), Real.log (1 / 2) / 2] ≤
      Real.log (1 / 2) ∧
      Real.log (1 / 2) ≤
        shrinkHi [Real.log (1 / 2), Real.log (1 / 2), Real.log (1 / 2) / 2]) :=
    fun h => hlo h.1
  have hn3 : ¬(shrinkLo [Real.log (1 / 2), Real.log (1 / 2), Real.log (1 / 2) / 2] ≤
      Real.log (1 / 2) / 2 ∧
      Real.log (1 / 2) / 2 ≤
        shrinkHi [Real.log (1 / 2), Real.log (1 / 2), Real.log (1 / 2) / 2]) :=
    fun h => hhi h.2
  have hsel : selPairs [Real.log (1 / 2), Real.log (1 / 2), Real.log (1 / 2) / 2]
      ([0, 0, 0] : List ℝ) = [] := by
    unfold selPairs
    rw [show ([Real.log (1 / 2), Real.log (1 / 2), Real.log (1 / 2) / 2].zip
        ([0, 0, 0] : List ℝ)) =
        [(Real.log (1 / 2), 0), (Real.log (1 / 2), 0), (Real.log (1 / 2) / 2, 0)]
      from rfl]
    simp only [List.filterMap_cons, List.filterMap_nil]
    rw [if_neg hn1, if_neg hn3]
  constructor
  · rw [hmapf, hmaps]
    exact hsel
  · unfold estimateAlpha
    rw [hmapf, hmaps]
    show (polyfit1 (selPairs [Real.log (1 / 2), Real.log (1 / 2),
      Real.log (1 / 2) / 2] ([0, 0, 0] : List ℝ))).map (fun c => -c.1) =
      Except.error NumpyError.typeError
    rw [hsel]
    rfl

/-! Claim C6: zero mean of the synthetic noise field and unit standard
deviation after normalisation. -/

theorem ifft2_f (F : CFld) (x y : ℕ) :
    (ifft2 F).f x y =
      (∑ i ∈ Finset.range F.m, ∑ j ∈ Finset.range F.n,
        F.f i j *
          Complex.exp ((2 * Real.pi * Complex.I) *
            ((i : ℂ) * x / F.m + (j : ℂ) * y / F.n))) /
        ((F.m : ℂ) * (F.n : ℂ)) := rfl

theorem rootSum (M k : ℕ) (hk : k < M) :
    ∑ x ∈ Finset.range M,
      Complex.exp ((2 * Real.pi * Complex.I) * ((k : ℂ) * (x : ℂ) / (M : ℂ))) =
      if k = 0 then (M : ℂ) else 0 := by
  have hM : 0 < M := lt_of_le_of_lt (Nat.zero_le k) hk
  by_cases hk0 : k = 0
  · subst hk0
    rw [if_pos rfl]
    have h1 : ∀ x ∈ Finset.range M,
        Complex.exp ((2 * Real.pi * Complex.I) *
          (((0 : ℕ) : ℂ) * (x : ℂ) / (M : ℂ))) = 1 := by
      intro x _
      norm_num
    rw [Finset.sum_congr rfl h1]
    simp
  · rw [if_neg hk0]
    have hterm : ∀ x : ℕ,
        Complex.exp ((2 * Real.pi * Complex.I) * ((k : ℂ) * (x : ℂ) / (M : ℂ))) =
        Complex.exp ((2 * Real.pi * Complex.I) * ((k : ℂ) / (M : ℂ))) ^ x := by
      intro x
      rw [← Complex.exp_nat_mul]
      congr 1
      ring
    rw [Finset.sum_congr rfl fun x _ => hterm x]
    have hMne : ((M : ℂ)) ≠ 0 := Nat.cast_ne_zero.mpr (by omega)
    have hzM : Complex.exp ((2 * Real.pi * Complex.I) * ((k : ℂ) / (M : ℂ))) ^ M
        = 1 := by
      rw [← Complex.exp_nat_mul]
      rw [show (M : ℂ) * ((2 * Real.pi * Complex.I) * ((k : ℂ) / (M : ℂ))) =
          (k : ℂ) * (2 * Real.pi * Complex.I) from by field_simp; ring]
      rw [show ((k : ℂ)) = (((k : ℤ) : ℂ)) from by push_cast; ring]
      exact Complex.exp_int_mul_two_pi_mul_I (k : ℤ)
    have hz1 : Complex.exp ((2 * Real.pi * Complex.I) * ((k : ℂ) / (M : ℂ))) ≠ 1 := by
      intro hcon
      rw [Complex.exp_eq_one_iff] at hcon
      obtain ⟨n, hn⟩ := hcon
      have h2pi : (2 * (Real.pi : ℂ) * Complex.I) ≠ 0 := Complex.two_pi_I_ne_zero
      have hfrac : (k : ℂ) / (M : ℂ) = (n : ℂ) := by
        apply mul_left_cancel₀ h2pi
        rw [hn]
        ring
      have hkM : (k : ℂ) = (n : ℂ) * (M : ℂ) := by
        field_simp at hfrac
        exact hfrac
      have hkZ : (k : ℤ) = n * (M : ℤ) := by exact_mod_cast hkM
      have hkpos : 0 < (k : ℤ) := by
        have : 0 < k := Nat.pos_of_ne_zero hk0
        exact_mod_cast this
      have hkMlt : (k : ℤ) < (M : ℤ) := by exact_mod_cast hk
      have hM0 : (0 : ℤ) < (M : ℤ) := by exact_mod_cast hM
      rcases lt_trichotomy n 0 with hn0 | hn0 | hn0
      · have hneg : n * (M : ℤ) < 0 := mul_neg_of_neg_of_pos hn0 hM0
        linarith
      · rw [hn0, zero_mul] at hkZ
        omega
      · have hge : (M : ℤ) ≤ n * (M : ℤ) :=
          le_mul_of_one_le_left hM0.le (by omega)
        linarith
    rw [geom_sum_eq hz1, hzM]
    simp

theorem quad_swap {α : Type} [AddCommMonoid α] (m n : ℕ)
    (t : ℕ → ℕ → ℕ → ℕ → α) :
    (∑ x ∈ Finset.range m, ∑ y ∈ Finset.range n,
        ∑ i ∈ Finset.range m, ∑ j ∈ Finset.range n, t x y i j) =
      ∑ i ∈ Finset.range m, ∑ j ∈ Finset.range n,
        ∑ x ∈ Finset.range m, ∑ y ∈ Finset.range n, t x y i j :=
  calc
    (∑ x ∈ Finset.range m, ∑ y ∈ Finset.range n,
        ∑ i ∈ Finset.range m, ∑ j ∈ Finset.range n, t x y i j) =
        ∑ x ∈ Finset.range m, ∑ i ∈ Finset.range m,
          ∑ y ∈ Finset.range n, ∑ j ∈ Finset.range n, t x y i j :=
      Finset.sum_congr rfl fun x _ => Finset.sum_comm
    _ = ∑ i ∈ Finset.range m, ∑ x ∈ Finset.range m,
          ∑ y ∈ Finset.range n, ∑ j ∈ Finset.range n, t x y i j :=
      Finset.sum_comm
    _ = ∑ i ∈ Finset.range m, ∑ x ∈ Finset.range m,
          ∑ j ∈ Finset.range n, ∑ y ∈ Finset.range n, t x y i j :=
      Finset.sum_congr rfl fun i _ =>
        Finset.sum_congr rfl fun x _ => Finset.sum_comm
    _ = ∑ i ∈ Finset.range m, ∑ j ∈ Finset.range n,
          ∑ x ∈ Finset.range m, ∑ y ∈ Finset.range n, t x y i j :=
      Finset.sum_congr rfl fun i _ => Finset.sum_comm

theorem ifft2_sum (F : CFld) (hM : 0 < F.m) (hN : 0 < F.n) :
    ∑ x ∈ Finset.range F.m, ∑ y ∈ Finset.range F.n, (ifft2 F).f x y =
      F.f 0 0 := by
  have hMC : ((F.m : ℂ)) ≠ 0 := Nat.cast_ne_zero.mpr (by omega)
  have hNC : ((F.n : ℂ)) ≠ 0 := Nat.cast_ne_zero.mpr (by omega)
  simp only [ifft2_f]
  simp only [← Finset.sum_div]
  rw [div_eq_iff (mul_ne_zero hMC hNC)]
  have inner : ∀ i ∈ Finset.range F.m, ∀ j ∈ Finset.range F.n,
      (∑ x ∈ Finset.range F.m, ∑ y ∈ Finset.range F.n,
        F.f i j *
          Complex.exp ((2 * Real.pi * Complex.I) *
            ((i : ℂ) * x / F.m + (j : ℂ) * y / F.n))) =
      F.f i j *
        ((if i = 0 then (F.m : ℂ) else 0) * (if j = 0 then (F.n : ℂ) else 0)) := by
    intro i hi j hj
    have hsplit : ∀ x ∈ Finset.range F.m, ∀ y ∈ Finset.range F.n,
        F.f i j *
          Complex.exp ((2 * Real.pi * Complex.I) *
            ((i : ℂ) * x / F.m + (j : ℂ) * y / F.n)) =
        F.f i j *
          (Complex.exp ((2 * Real.pi * Complex.I) * ((i : ℂ) * (x : ℂ) / (F.m : ℂ))) *
            Complex.exp ((2 * Real.pi * Complex.I) * ((j : ℂ) * (y : ℂ) / (F.n : ℂ)))) := by
      intro x _ y _
      rw [← Complex.exp_add]
      congr 2
      ring
    rw [Finset.sum_congr rfl fun x hx =>
      Finset.sum_congr rfl fun y hy => hsplit x hx y hy]
    have hfact : F.f i j *
        ((∑ x ∈ Finset.range F.m,
          Complex.exp ((2 * Real.pi * Complex.I) * ((i : ℂ) * (x : ℂ) / (F.m : ℂ)))) *
         (∑ y ∈ Finset.range F.n,
          Complex.exp ((2 * Real.pi * Complex.I) * ((j : ℂ) * (y : ℂ) / (F.n : ℂ))))) =
        ∑ x ∈ Finset.range F.m, ∑ y ∈ Finset.range F.n,
          F.f i j *
            (Complex.exp ((2 * Real.pi * Complex.I) * ((i : ℂ) * (x : ℂ) / (F.m : ℂ))) *
              Complex.exp ((2 * Real.pi * Complex.I) * ((j : ℂ) * (y : ℂ) / (F.n : ℂ)))) := by
      rw [Finset.sum_mul_sum]
      simp only [Finset.mul_sum]
    rw [← hfact, rootSum F.m i (Finset.mem_range.mp hi),
      rootSum F.n j (Finset.mem_range.mp hj)]
  rw [quad_swap F.m F.n fun x y i j =>
    F.f i j *
      Complex.exp ((2 * Real.pi * Complex.I) *
        ((i : ℂ) * x / F.m + (j : ℂ) * y / F.n))]
  rw [Finset.sum_congr rfl fun i hi => Finset.sum_congr rfl fun j hj =>
    inner i hi j hj]
  rw [Finset.sum_eq_single 0 (fun b _ hb => by
      rw [if_neg hb]
      simp) (fun hb => absurd (Finset.mem_range.mpr hM) hb)]
  rw [Finset.sum_eq_single 0 (fun b _ hb => by
      rw [if_neg hb]
      simp) (fun hb => absurd (Finset.mem_range.mpr hN) hb)]
  simp [mul_assoc]

/-- C6: the zero-frequency element of the random spectrum is exactly zero, so
the synthetic noise field has exactly zero mean; whenever it has non-zero
standard deviation, dividing by that standard deviation yields a field of
unit standard deviation, for every slope, grid size and random draw. -/
theorem synth_zero_mean_unit_std (P : Fld) (a : ℝ) (D : ℕ) (φ : ℕ → ℕ → ℝ) :
    (fgZ P a D φ).f 0 0 = 0 ∧
      fldMean (gRaw P a D φ) = 0 ∧
      (fldStd (gRaw P a D φ) ≠ 0 → fldStd (gNorm P a D φ) = 1) := by
  have hfg0 : (fgZ P a D φ).f 0 0 = 0 := by simp [fgZ]
  refine ⟨hfg0, ?_, ?_⟩
  · rcases Nat.eq_zero_or_pos (P.m * D) with hM | hM
    · unfold fldMean fldSum
      rw [show (gRaw P a D φ).m = P.m * D from rfl, hM]
      simp
    rcases Nat.eq_zero_or_pos (P.n * D) with hN | hN
    · unfold fldMean fldSum
      rw [show (gRaw P a D φ).n = P.n * D from rfl, hN]
      simp
    unfold fldMean fldSum
    rw [show Finset.range (gRaw P a D φ).m =
        Finset.range (fgZ P a D φ).m from rfl,
      show Finset.range (gRaw P a D φ).n =
        Finset.range (fgZ P a D φ).n from rfl]
    simp only [show ∀ x y : ℕ, (gRaw P a D φ).f x y =
      ((ifft2 (fgZ P a D φ)).f x y).re from fun _ _ => rfl]
    have hsum : (∑ x ∈ Finset.range (fgZ P a D φ).m,
        ∑ y ∈ Finset.range (fgZ P a D φ).n, (ifft2 (fgZ P a D φ)).f x y).re =
        ∑ x ∈ Finset.range (fgZ P a D φ).m,
          ∑ y ∈ Finset.range (fgZ P a D φ).n,
            ((ifft2 (fgZ P a D φ)).f x y).re := by
      rw [Complex.re_sum]
      exact Finset.sum_congr rfl fun x _ => Complex.re_sum _ _
    rw [← hsum, ifft2_sum (fgZ P a D φ) hM hN, hfg0]
    simp
  · intro hs
    have hVnn : 0 ≤ fldVar (gRaw P a D φ) := by
      unfold fldVar
      apply div_nonneg
      · apply Finset.sum_nonneg
        intro x _
        apply Finset.sum_nonneg
        intro y _
        positivity
      · positivity
    have hs2 : fldStd (gRaw P a D φ) ^ 2 = fldVar (gRaw P a D φ) :=
      Real.sq_sqrt hVnn
    have hmean : fldMean (gNorm P a D φ) =
        fldMean (gRaw P a D φ) / fldStd (gRaw P a D φ) := by
      unfold fldMean fldSum
      rw [show (gNorm P a D φ).m = (gRaw P a D φ).m from rfl,
        show (gNorm P a D φ).n = (gRaw P a D φ).n from rfl]
      simp only [show ∀ x y : ℕ, (gNorm P a D φ).f x y =
        (gRaw P a D φ).f x y / fldStd (gRaw P a D φ) from fun _ _ => rfl]
      simp only [← Finset.sum_div]
      rw [div_right_comm]
    have hvar : fldVar (gNorm P a D φ) = 1 := by
      unfold fldVar
      rw [show (gNorm P a D φ).m = (gRaw P a D φ).m from rfl,
        show (gNorm P a D φ).n = (gRaw P a D φ).n from rfl]
      simp only [show ∀ x y : ℕ, (gNorm P a D φ).f x y =
        (gRaw P a D φ).f x y / fldStd (gRaw P a D φ) from fun _ _ => rfl, hmean]
      simp only [div_sub_div_same, div_pow]
      simp only [← Finset.sum_div]
      rw [div_right_comm]
      rw [show (∑ x ∈ Finset.range (gRaw P a D φ).m,
          ∑ y ∈ Finset.range (gRaw P a D φ).n,
            ((gRaw P a D φ).f x y - fldMean (gRaw P a D φ)) ^ 2) /
          (((gRaw P a D φ).m : ℝ) * ((gRaw P a D φ).n : ℝ)) =
          fldVar (gRaw P a D φ) from rfl]
      rw [← hs2]
      exact div_self (pow_ne_zero 2 hs)
    unfold fldStd
    rw [hvar, Real.sqrt_one]

/-- Witness for C6: on the 2 by 1 grid with slope 0 and zero phases the
synthesized field is (1/2, -1/2), whose standard deviation 1/2 is non-zero,
and the normalised field has unit standard deviation. -/
theorem synth_zero_mean_unit_std_witness :
    fldStd (gRaw twoCell 0 1 phase0) ≠ 0 ∧
      fldStd (gNorm twoCell 0 1 phase0) = 1 := by
  have hfg00 : (fgZ twoCell 0 1 phase0).f 0 0 = 0 := by simp [fgZ]
  have hfg10 : (fgZ twoCell 0 1 phase0).f 1 0 = 1 := by
    have h1 : (fgZ twoCell 0 1 phase0).f 1 0 =
        (fgRand twoCell 0 1 phase0).f 1 0 := by
      simp [fgZ]
    rw [h1]
    show Complex.exp (Complex.I * 2 * Real.pi * (phase0 1 0)) *
        ((ampOf 0 ((kSqrDs twoCell 1).f 1 0) : ℝ) : ℂ) = 1
    rw [show ampOf 0 ((kSqrDs twoCell 1).f 1 0) = 1 from by
      unfold ampOf
      rw [show (-(0 : ℝ) / 2) = (0 : ℝ) from by norm_num, Real.rpow_zero,
        Real.sqrt_one]]
    simp [phase0]
  have c0 : (ifft2 (fgZ twoCell 0 1 phase0)).f 0 0 = ((1 / 2 : ℝ) : ℂ) := by
    rw [ifft2_f]
    rw [show (fgZ twoCell 0 1 phase0).m = 2 from rfl,
      show (fgZ twoCell 0 1 phase0).n = 1 from rfl]
    simp only [Finset.sum_range_succ, Finset.sum_range_zero,
      Finset.sum_range_one]
    rw [hfg00, hfg10]
    rw [show (2 * (Real.pi : ℂ) * Complex.I) *
        (((1 : ℕ) : ℂ) * ((0 : ℕ) : ℂ) / ((2 : ℕ) : ℂ) +
          ((0 : ℕ) : ℂ) * ((0 : ℕ) : ℂ) / ((1 : ℕ) : ℂ)) = 0 from by
      push_cast
      ring]
    rw [Complex.exp_zero]
    push_cast
    norm_num
  have c1 : (ifft2 (fgZ twoCell 0 1 phase0)).f 1 0 = ((-(1 / 2) : ℝ) : ℂ) := by
    rw [ifft2_f]
    rw [show (fgZ twoCell 0 1 phase0).m = 2 from rfl,
      show (fgZ twoCell 0 1 phase0).n = 1 from rfl]
    simp only [Finset.sum_range_succ, Finset.sum_range_zero,
      Finset.sum_range_one]
    rw [hfg00, hfg10]
    rw [show (2 * (Real.pi : ℂ) * Complex.I) *
        (((1 : ℕ) : ℂ) * ((1 : ℕ) : ℂ) / ((2 : ℕ) : ℂ) +
          ((0 : ℕ) : ℂ) * ((0 : ℕ) : ℂ) / ((1 : ℕ) : ℂ)) =
        (Real.pi : ℂ) * Complex.I from by
      push_cast
      ring]
    rw [Complex.exp_pi_mul_I]
    push_cast
    norm_num
  have g0 : (gRaw twoCell 0 1 phase0).f 0 0 = 1 / 2 := by
    show ((ifft2 (fgZ twoCell 0 1 phase0)).f 0 0).re = 1 / 2
    rw [c0, Complex.ofReal_re]
  have g1 : (gRaw twoCell 0 1 phase0).f 1 0 = -(1 / 2) := by
    show ((ifft2 (fgZ twoCell 0 1 phase0)).f 1 0).re = -(1 / 2)
    rw [c1, Complex.ofReal_re]
  have hμ : fldMean (gRaw twoCell 0 1 phase0) = 0 :=
    (synth_zero_mean_unit_std twoCell 0 1 phase0).2.1
  have hvar : fldVar (gRaw twoCell 0 1 phase0) = 1 / 4 := by
    unfold fldVar
    rw [show (gRaw twoCell 0 1 phase0).m = 2 from rfl,
      show (gRaw twoCell 0 1 phase0).n = 1 from rfl]
    simp only [Finset.sum_range_succ, Finset.sum_range_zero,
      Finset.sum_range_one]
    rw [g0, g1, hμ]
    norm_num
  have hstd : fldStd (gRaw twoCell 0 1 phase0) ≠ 0 := by
    unfold fldStd
    rw [hvar, show (1 / 4 : ℝ) = (1 / 2) ^ 2 from by norm_num,
      Real.sqrt_sq (by norm_num : (0 : ℝ) ≤ 1 / 2)]
    norm_num
  exact ⟨hstd, (synth_zero_mean_unit_std twoCell 0 1 phase0).2.2 hstd⟩

/-! Claim C3: the estimated spectral slope is the negated ordinary
least-squares slope over the central two-thirds of the log-frequency range. -/

theorem fft2_f (P : Fld) (i j : ℕ) :
    (fft2 P).f i j =
      ∑ x ∈ Finset.range P.m, ∑ y ∈ Finset.range P.n,
        (P.f x y : ℂ) *
          Complex.exp (-(2 * Real.pi * Complex.I) *
            ((i : ℂ) * x / P.m + (j : ℂ) * y / P.n)) := rfl

theorem specLo_eq (lk : List ℝ) : specLo lk = shrinkLo lk := by
  unfold specLo shrinkLo
  ring

theorem specHi_eq (lk : List ℝ) : specHi lk = shrinkHi lk := by
  unfold specHi shrinkHi
  ring

theorem specSel_eq_selPairs (lk lp : List ℝ) : specSel lk lp = selPairs lk lp := by
  unfold specSel selPairs
  simp only [specLo_eq, specHi_eq]

theorem sum_shift_mul (pts : List (ℝ × ℝ)) (A B : ℝ) :
    ((pts.map fun p => (p.1 - A) * (p.2 - B)).sum) =
      sumXY pts - A * sumY pts - B * sumX pts + (pts.length : ℝ) * (A * B) := by
  induction pts with
  | nil => simp [sumXY, sumY, sumX]
  | cons q qs ih =>
      have e1 : sumXY (q :: qs) = q.1 * q.2 + sumXY qs := by simp [sumXY]
      have e2 : sumX (q :: qs) = q.1 + sumX qs := by simp [sumX]
      have e3 : sumY (q :: qs) = q.2 + sumY qs := by simp [sumY]
      simp only [List.map_cons, List.sum_cons, List.length_cons]
      rw [e1, e2, e3, ih]
      push_cast
      ring

theorem sum_shift_sq (pts : List (ℝ × ℝ)) (A : ℝ) :
    ((pts.map fun p => (p.1 - A) ^ 2).sum) =
      sumXX pts - 2 * A * sumX pts + (pts.length : ℝ) * A ^ 2 := by
  induction pts with
  | nil => simp [sumXX, sumX]
  | cons q qs ih =>
      have e1 : sumXX (q :: qs) = q.1 ^ 2 + sumXX qs := by simp [sumXX]
      have e2 : sumX (q :: qs) = q.1 + sumX qs := by simp [sumX]
      simp only [List.map_cons, List.sum_cons, List.length_cons]
      rw [e1, e2, ih]
      push_cast
      ring

theorem covSlope_eq_olsSlope (pts : List (ℝ × ℝ)) (hne : pts ≠ []) :
    covSlope pts = olsSlope pts := by
  have hN : ((pts.length : ℝ)) ≠ 0 := by
    have h : pts.length ≠ 0 := fun h => hne (List.length_eq_zero.mp h)
    exact_mod_cast h
  unfold covSlope olsSlope olsDen xbar ybar
  rw [sum_shift_mul pts (sumX pts / (pts.length : ℝ)) (sumY pts / (pts.length : ℝ)),
    sum_shift_sq pts (sumX pts / (pts.length : ℝ))]
  rw [show (pts.length : ℝ) * sumXY pts - sumX pts * sumY pts =
      (pts.length : ℝ) *
        (sumXY pts - sumX pts / (pts.length : ℝ) * sumY pts -
          sumY pts / (pts.length : ℝ) * sumX pts +
          (pts.length : ℝ) *
            (sumX pts / (pts.length : ℝ) * (sumY pts / (pts.length : ℝ)))) from by
    field_simp
    ring]
  rw [show (pts.length : ℝ) * sumXX pts - sumX pts ^ 2 =
      (pts.length : ℝ) *
        (sumXX pts - 2 * (sumX pts / (pts.length : ℝ)) * sumX pts +
          (pts.length : ℝ) * (sumX pts / (pts.length : ℝ)) ^ 2) from by
    field_simp
    ring]
  exact (mul_div_mul_left _ _ hN).symm

/-- C3: when alpha is estimated, the result is exactly the negation of the
ordinary least-squares slope (in the covariance formulation the
specification uses) of log power against log k, restricted to the valid
frequency points whose log k lies in the central two-thirds of the
log-frequency range; the hypotheses state that the selected sample is
non-empty and non-degenerate, the domain on which the least-squares line of
numpy.polyfit is the closed-form least-squares solution. -/
theorem estimate_alpha_matches_spec (P : Fld)
    (hne : selPairs ((validPairs P).map fun p => p.1)
      ((validPairs P).map fun p => p.2) ≠ [])
    (hden : olsDen (selPairs ((validPairs P).map fun p => p.1)
      ((validPairs P).map fun p => p.2)) ≠ 0) :
    estimateAlpha P = Except.ok (specAlpha P) := by
  have hlk : (validPairs P).map (fun p => p.1) ≠ [] := by
    intro h
    apply hne
    unfold selPairs
    rw [h]
    rfl
  obtain ⟨x0, lk0, hcons⟩ := List.exists_cons_of_ne_nil hlk
  obtain ⟨q0, qs0, hq⟩ := List.exists_cons_of_ne_nil hne
  unfold estimateAlpha
  rw [hcons]
  show (polyfit1 (selPairs (x0 :: lk0) ((validPairs P).map fun p => p.2))).map
      (fun c => -c.1) = Except.ok (specAlpha P)
  rw [← hcons, hq]
  show Except.ok (-olsSlope (q0 :: qs0)) = Except.ok (specAlpha P)
  rw [← hq]
  unfold specAlpha
  rw [specSel_eq_selPairs, covSlope_eq_olsSlope _ hne]

/-- Witness for C3: on the 8 by 1 field with a single non-zero cell the
valid sample is non-empty, the central two-thirds of the log-frequency range
keeps the two distinct log-frequencies log(1/4) and log(3/8), and the
resulting regression sample is non-degenerate, so the estimation path
returns the negated least-squares slope of the specification. -/
theorem estimate_alpha_matches_spec_witness :
    estimateAlpha delta8 = Except.ok (specAlpha delta8) := by
  have hu : 0 < Real.log 2 := Real.log_pos (by norm_num)
  have hv : 0 < Real.log 3 := Real.log_pos (by norm_num)
  have huv : Real.log 2 < Real.log 3 := Real.log_lt_log (by norm_num) (by norm_num)
  have h27 : Real.log 2 ≤ 3 * Real.log 3 := by
    have h := Real.log_le_log (by norm_num : (0 : ℝ) < 2)
      (by norm_num : (2 : ℝ) ≤ 27)
    rw [show (27 : ℝ) = 3 ^ 3 by norm_num, Real.log_pow] at h
    push_cast at h
    linarith
  have h32 : 3 * Real.log 3 ≤ 5 * Real.log 2 := by
    have h := Real.log_le_log (by norm_num : (0 : ℝ) < 27)
      (by norm_num : (27 : ℝ) ≤ 32)
    rw [show (27 : ℝ) = 3 ^ 3 by norm_num, show (32 : ℝ) = 2 ^ 5 by norm_num,
      Real.log_pow, Real.log_pow] at h
    push_cast at h
    linarith
  have h34 : Real.log 3 ≤ 2 * Real.log 2 := by
    have h := Real.log_le_log (by norm_num : (0 : ℝ) < 3)
      (by norm_num : (3 : ℝ) ≤ 4)
    rw [show (4 : ℝ) = 2 ^ 2 by norm_num, Real.log_pow] at h
    push_cast at h
    linarith
  have hA : Real.log (1 / 8 : ℝ) = -(3 * Real.log 2) := by
    rw [show (1 / 8 : ℝ) = ((2 : ℝ) ^ 3)⁻¹ by norm_num, Real.log_inv,
      Real.log_pow]
    push_cast
    ring
  have hB : Real.log (1 / 4 : ℝ) = -(2 * Real.log 2) := by
    rw [show (1 / 4 : ℝ) = ((2 : ℝ) ^ 2)⁻¹ by norm_num, Real.log_inv,
      Real.log_pow]
    push_cast
    ring
  have hC : Real.log (1 / 2 : ℝ) = -Real.log 2 := by
    rw [show (1 / 2 : ℝ) = (2 : ℝ)⁻¹ by norm_num, Real.log_inv]
  have hD : Real.log (3 / 8 : ℝ) = Real.log 3 - 3 * Real.log 2 := by
    rw [Real.log_div (by norm_num) (by norm_num),
      show (8 : ℝ) = 2 ^ 3 by norm_num, Real.log_pow]
    push_cast
    ring
  have hrm8 : rowMajor 8 1 =
      [(0, 0), (1, 0), (2, 0), (3, 0), (4, 0), (5, 0), (6, 0), (7, 0)] := by
    decide
  have hkg : ∀ i : ℕ, (kGrid delta8).f i 0 =
      Real.sqrt (fftfreq 8 1 i ^ 2 + fftfreq 1 1 0 ^ 2) := fun _ => rfl
  have hffc : fftfreq 1 1 0 = 0 := by norm_num [fftfreq]
  have hff0 : fftfreq 8 1 0 = 0 := by norm_num [fftfreq]
  have hff1 : fftfreq 8 1 1 = 1 / 8 := by norm_num [fftfreq]
  have hff2 : fftfreq 8 1 2 = 1 / 4 := by norm_num [fftfreq]
  have hff3 : fftfreq 8 1 3 = 3 / 8 := by norm_num [fftfreq]
  have hff4 : fftfreq 8 1 4 = -(1 / 2) := by norm_num [fftfreq]
  have hff5 : fftfreq 8 1 5 = -(3 / 8) := by norm_num [fftfreq]
  have hff6 : fftfreq 8 1 6 = -(1 / 4) := by norm_num [fftfreq]
  have hff7 : fftfreq 8 1 7 = -(1 / 8) := by norm_num [fftfreq]
  have hk0 : (kGrid delta8).f 0 0 = 0 := by
    rw [hkg, hff0, hffc, show ((0 : ℝ) ^ 2 + 0 ^ 2) = 0 by norm_num]
    exact Real.sqrt_zero
  have hk1 : (kGrid delta8).f 1 0 = 1 / 8 := by
    rw [hkg, hff1, hffc, show ((1 / 8 : ℝ) ^ 2 + 0 ^ 2) = (1 / 8) ^ 2 by norm_num]
    exact Real.sqrt_sq (by norm_num)
  have hk2 : (kGrid delta8).f 2 0 = 1 / 4 := by
    rw [hkg, hff2, hffc, show ((1 / 4 : ℝ) ^ 2 + 0 ^ 2) = (1 / 4) ^ 2 by norm_num]
    exact Real.sqrt_sq (by norm_num)
  have hk3 : (kGrid delta8).f 3 0 = 3 / 8 := by
    rw [hkg, hff3, hffc, show ((3 / 8 : ℝ) ^ 2 + 0 ^ 2) = (3 / 8) ^ 2 by norm_num]
    exact Real.sqrt_sq (by norm_num)
  have hk4 : (kGrid delta8).f 4 0 = 1 / 2 := by
    rw [hkg, hff4, hffc,
      show ((-(1 / 2) : ℝ) ^ 2 + 0 ^ 2) = (1 / 2) ^ 2 by norm_num]
    exact Real.sqrt_sq (by norm_num)
  have hk5 : (kGrid delta8).f 5 0 = 3 / 8 := by
    rw [hkg, hff5, hffc,
      show ((-(3 / 8) : ℝ) ^ 2 + 0 ^ 2) = (3 / 8) ^ 2 by norm_num]
    exact Real.sqrt_sq (by norm_num)
  have hk6 : (kGrid delta8).f 6 0 = 1 / 4 := by
    rw [hkg, hff6, hffc,
      show ((-(1 / 4) : ℝ) ^ 2 + 0 ^ 2) = (1 / 4) ^ 2 by norm_num]
    exact Real.sqrt_sq (by norm_num)
  have hk7 : (kGrid delta8).f 7 0 = 1 / 8 := by
    rw [hkg, hff7, hffc,
      show ((-(1 / 8) : ℝ) ^ 2 + 0 ^ 2) = (1 / 8) ^ 2 by norm_num]
    exact Real.sqrt_sq (by norm_num)
  have hfp8 : ∀ i j : ℕ, (fft2 delta8).f i j = 1 := by
    intro i j
    rw [fft2_f, show delta8.m = 8 from rfl, show delta8.n = 1 from rfl]
    simp only [Finset.sum_range_succ, Finset.sum_range_zero,
      Finset.sum_range_one]
    simp only [show ∀ y : ℕ, delta8.f 0 y = 1 from fun _ => rfl,
      show ∀ y : ℕ, delta8.f 1 y = 0 from fun _ => rfl,
      show ∀ y : ℕ, delta8.f 2 y = 0 from fun _ => rfl,
      show ∀ y : ℕ, delta8.f 3 y = 0 from fun _ => rfl,
      show ∀ y : ℕ, delta8.f 4 y = 0 from fun _ => rfl,
      show ∀ y : ℕ, delta8.f 5 y = 0 from fun _ => rfl,
      show ∀ y : ℕ, delta8.f 6 y = 0 from fun _ => rfl,
      show ∀ y : ℕ, delta8.f 7 y = 0 from fun _ => rfl]
    norm_num [Complex.exp_zero]
  have habs8 : ∀ i j : ℕ, fpAbsSq delta8 i j = 1 := by
    intro i j
    unfold fpAbsSq
    rw [hfp8]
    simp
  have hlp8 : ∀ i j : ℕ, logPower delta8 i j = 0 := by
    intro i j
    unfold logPower
    rw [habs8, Real.log_one]
  have hcd0 : ¬((kGrid delta8).f 0 0 ≠ 0 ∧ fpAbsSq delta8 0 0 ≠ 0) :=
    fun h => h.1 hk0
  have hcd1 : (kGrid delta8).f 1 0 ≠ 0 ∧ fpAbsSq delta8 1 0 ≠ 0 :=
    ⟨by rw [hk1]; norm_num, by rw [habs8]; norm_num⟩
  have hcd2 : (kGrid delta8).f 2 0 ≠ 0 ∧ fpAbsSq delta8 2 0 ≠ 0 :=
    ⟨by rw [hk2]; norm_num, by rw [habs8]; norm_num⟩
  have hcd3 : (kGrid delta8).f 3 0 ≠ 0 ∧ fpAbsSq delta8 3 0 ≠ 0 :=
    ⟨by rw [hk3]; norm_num, by rw [habs8]; norm_num⟩
  have hcd4 : (kGrid delta8).f 4 0 ≠ 0 ∧ fpAbsSq delta8 4 0 ≠ 0 :=
    ⟨by rw [hk4]; norm_num, by rw [habs8]; norm_num⟩
  have hcd5 : (kGrid delta8).f 5 0 ≠ 0 ∧ fpAbsSq delta8 5 0 ≠ 0 :=
    ⟨by rw [hk5]; norm_num, by rw [habs8]; norm_num⟩
  have hcd6 : (kGrid delta8).f 6 0 ≠ 0 ∧ fpAbsSq delta8 6 0 ≠ 0 :=
    ⟨by rw [hk6]; norm_num, by rw [habs8]; norm_num⟩
  have hcd7 : (kGrid delta8).f 7 0 ≠ 0 ∧ fpAbsSq delta8 7 0 ≠ 0 :=
    ⟨by rw [hk7]; norm_num, by rw [habs8]; norm_num⟩
  have hvp8 : validPairs delta8 =
      [(-(3 * Real.log 2), 0), (-(2 * Real.log 2), 0),
        (Real.log 3 - 3 * Real.log 2, 0), (-Real.log 2, 0),
        (Real.log 3 - 3 * Real.log 2, 0), (-(2 * Real.log 2), 0),
        (-(3 * Real.log 2), 0)] := by
    unfold validPairs
    rw [show delta8.m = 8 from rfl, show delta8.n = 1 from rfl, hrm8]
    simp only [List.filterMap_cons, List.filterMap_nil]
    rw [if_neg hcd0, if_pos hcd1, if_pos hcd2, if_pos hcd3, if_pos hcd4,
      if_pos hcd5, if_pos hcd6, if_pos hcd7]
    simp only [hk1, hk2, hk3, hk4, hk5, hk6, hk7, hlp8]
    rw [hA, hB, hC, hD]
  have hmapf8 : (validPairs delta8).map (fun p => p.1) =
      [-(3 * Real.log 2), -(2 * Real.log 2), Real.log 3 - 3 * Real.log 2,
        -Real.log 2, Real.log 3 - 3 * Real.log 2, -(2 * Real.log 2),
        -(3 * Real.log 2)] := by
    rw [hvp8]
    rfl
  have hmaps8 : (validPairs delta8).map (fun p => p.2) =
      ([0, 0, 0, 0, 0, 0, 0] : List ℝ) := by
    rw [hvp8]
    rfl
  have ha12 : -(3 * Real.log 2) ≤ -(2 * Real.log 2) := by linarith
  have ha13 : -(3 * Real.log 2) ≤ Real.log 3 - 3 * Real.log 2 := by linarith
  have ha14 : -(3 * Real.log 2) ≤ -Real.log 2 := by linarith
  have ha23 : -(2 * Real.log 2) ≤ Real.log 3 - 3 * Real.log 2 := by linarith
  have ha24 : -(2 * Real.log 2) ≤ -Real.log 2 := by linarith
  have ha34 : Real.log 3 - 3 * Real.log 2 ≤ -Real.log 2 := by linarith
  have hminv : listMin [-(3 * Real.log 2), -(2 * Real.log 2),
      Real.log 3 - 3 * Real.log 2, -Real.log 2, Real.log 3 - 3 * Real.log 2,
      -(2 * Real.log 2), -(3 * Real.log 2)] = -(3 * Real.log 2) := by
    simp only [listMin, List.foldl_cons, List.foldl_nil]
    rw [min_eq_left ha12, min_eq_left ha13, min_eq_left ha14,
      min_eq_left ha13, min_eq_left ha12, min_self]
  have hmaxv : listMax [-(3 * Real.log 2), -(2 * Real.log 2),
      Real.log 3 - 3 * Real.log 2, -Real.log 2, Real.log 3 - 3 * Real.log 2,
      -(2 * Real.log 2), -(3 * Real.log 2)] = -Real.log 2 := by
    simp only [listMax, List.foldl_cons, List.foldl_nil]
    rw [max_eq_right ha12, max_eq_right ha23, max_eq_right ha34,
      max_eq_left ha34, max_eq_left ha24, max_eq_left ha14]
  have hsLo : shrinkLo [-(3 * Real.log 2), -(2 * Real.log 2),
      Real.log 3 - 3 * Real.log 2, -Real.log 2, Real.log 3 - 3 * Real.log 2,
      -(2 * Real.log 2), -(3 * Real.log 2)] =
      -(3 * Real.log 2) + 1 / 6 * (-Real.log 2 - -(3 * Real.log 2)) := by
    unfold shrinkLo
    rw [hminv, hmaxv]
  have hsHi : shrinkHi [-(3 * Real.log 2), -(2 * Real.log 2),
      Real.log 3 - 3 * Real.log 2, -Real.log 2, Real.log 3 - 3 * Real.log 2,
      -(2 * Real.log 2), -(3 * Real.log 2)] =
      -Real.log 2 - 1 / 6 * (-Real.log 2 - -(3 * Real.log 2)) := by
    unfold shrinkHi
    rw [hminv, hmaxv]
  have hs1 : ¬(shrinkLo [-(3 * Real.log 2), -(2 * Real.log 2),
      Real.log 3 - 3 * Real.log 2, -Real.log 2, Real.log 3 - 3 * Real.log 2,
      -(2 * Real.log 2), -(3 * Real.log 2)] ≤ -(3 * Real.log 2) ∧
      -(3 * Real.log 2) ≤ shrinkHi [-(3 * Real.log 2), -(2 * Real.log 2),
        Real.log 3 - 3 * Real.log 2, -Real.log 2,
        Real.log 3 - 3 * Real.log 2, -(2 * Real.log 2),
        -(3 * Real.log 2)]) := by
    intro h
    have h1 := h.1
    rw [hsLo] at h1
    linarith
  have hs2 : shrinkLo [-(3 * Real.log 2), -(2 * Real.log 2),
      Real.log 3 - 3 * Real.log 2, -Real.log 2, Real.log 3 - 3 * Real.log 2,
      -(2 * Real.log 2), -(3 * Real.log 2)] ≤ -(2 * Real.log 2) ∧
      -(2 * Real.log 2) ≤ shrinkHi [-(3 * Real.log 2), -(2 * Real.log 2),
        Real.log 3 - 3 * Real.log 2, -Real.log 2,
        Real.log 3 - 3 * Real.log 2, -(2 * Real.log 2), -(3 * Real.log 2)] :=
    ⟨by rw [hsLo]; linarith, by rw [hsHi]; linarith⟩
  have hs3 : shrinkLo [-(3 * Real.log 2), -(2 * Real.log 2),
      Real.log 3 - 3 * Real.log 2, -Real.log 2, Real.log 3 - 3 * Real.log 2,
      -(2 * Real.log 2), -(3 * Real.log 2)] ≤ Real.log 3 - 3 * Real.log 2 ∧
      Real.log 3 - 3 * Real.log 2 ≤ shrinkHi [-(3 * Real.log 2),
        -(2 * Real.log 2), Real.log 3 - 3 * Real.log 2, -Real.log 2,
        Real.log 3 - 3 * Real.log 2, -(2 * Real.log 2), -(3 * Real.log 2)] :=
    ⟨by rw [hsLo]; linarith, by rw [hsHi]; linarith⟩
  have hs4 : ¬(shrinkLo [-(3 * Real.log 2), -(2 * Real.log 2),
      Real.log 3 - 3 * Real.log 2, -Real.log 2, Real.log 3 - 3 * Real.log 2,
      -(2 * Real.log 2), -(3 * Real.log 2)] ≤ -Real.log 2 ∧
      -Real.log 2 ≤ shrinkHi [-(3 * Real.log 2), -(2 * Real.log 2),
        Real.log 3 - 3 * Real.log 2, -Real.log 2,
        Real.log 3 - 3 * Real.log 2, -(2 * Real.log 2),
        -(3 * Real.log 2)]) := by
    intro h
    have h2 := h.2
    rw [hsHi] at h2
    linarith
  have hsel8 : selPairs
      [-(3 * Real.log 2), -(2 * Real.log 2), Real.log 3 - 3 * Real.log 2,
        -Real.log 2, Real.log 3 - 3 * Real.log 2, -(2 * Real.log 2),
        -(3 * Real.log 2)] ([0, 0, 0, 0, 0, 0, 0] : List ℝ) =
      [(-(2 * Real.log 2), 0), (Real.log 3 - 3 * Real.log 2, 0),
        (Real.log 3 - 3 * Real.log 2, 0), (-(2 * Real.log 2), 0)] := by
    unfold selPairs
    rw [show ([-(3 * Real.log 2), -(2 * Real.log 2),
        Real.log 3 - 3 * Real.log 2, -Real.log 2,
        Real.log 3 - 3 * Real.log 2, -(2 * Real.log 2),
        -(3 * Real.log 2)].zip ([0, 0, 0, 0, 0, 0, 0] : List ℝ)) =
        [(-(3 * Real.log 2), 0), (-(2 * Real.log 2), 0),
          (Real.log 3 - 3 * Real.log 2, 0), (-Real.log 2, 0),
          (Real.log 3 - 3 * Real.log 2, 0), (-(2 * Real.log 2), 0),
          (-(3 * Real.log 2), 0)] from rfl]
    simp only [List.filterMap_cons, List.filterMap_nil]
    rw [if_neg hs1, if_pos hs2, if_pos hs3, if_neg hs4]
  have hx : (-(2 * Real.log 2) - (Real.log 3 - 3 * Real.log 2)) ≠ 0 := by
    intro h
    linarith
  have hden8 : olsDen [(-(2 * Real.log 2), (0 : ℝ)),
      (Real.log 3 - 3 * Real.log 2, 0), (Real.log 3 - 3 * Real.log 2, 0),
      (-(2 * Real.log 2), 0)] ≠ 0 := by
    have hrw : olsDen [(-(2 * Real.log 2), (0 : ℝ)),
        (Real.log 3 - 3 * Real.log 2, 0), (Real.log 3 - 3 * Real.log 2, 0),
        (-(2 * Real.log 2), 0)] =
        4 * (-(2 * Real.log 2) - (Real.log 3 - 3 * Real.log 2)) ^ 2 := by
      unfold olsDen sumXX sumX
      simp only [List.map_cons, List.map_nil, List.sum_cons, List.sum_nil,
        List.length_cons, List.length_nil]
      push_cast
      ring
    rw [hrw]
    exact mul_ne_zero (by norm_num) (pow_ne_zero 2 hx)
  have hneF : selPairs ((validPairs delta8).map fun p => p.1)
      ((validPairs delta8).map fun p => p.2) ≠ [] := by
    rw [hmapf8, hmaps8, hsel8]
    simp
  have hdenF : olsDen (selPairs ((validPairs delta8).map fun p => p.1)
      ((validPairs delta8).map fun p => p.2)) ≠ 0 := by
    rw [hmapf8, hmaps8, hsel8]
    exact hden8
  exact estimate_alpha_matches_spec delta8 hneF hdenF

end RainFarm

end
